import Mathlib

/-!
Verification of the loopy-BP image-denoising application
(`apps/image_denoise/loopybp_denoise.cpp`) against its specification.

The application file is embedded directly.  The graphlab library pieces it
calls (`unary_factor`, `binary_factor`, the graph container and the
scheduler) are not part of the application source; the operations whose
content the claims mention (`times`, `divide`, `uniform`) are modelled from
the spec, while the operations whose content no claim depends on
(`normalize`, `convolve`, `damp`, `residual`) are kept abstract as a record
of vector operations, so every theorem about `bp_update` holds for every
interpretation of those operations.

Log-weights are modelled as rational numbers (`ℚ`), the usual shallow
embedding of the C `double` fields.
-/

namespace LoopyBP

/-- A `graphlab::unary_factor`: a variable id together with the ordered array
of log-weights indexed by domain state. -/
structure UFactor where
  var : ℕ
  logP : List ℚ
deriving DecidableEq, Repr

/-- A `graphlab::binary_factor` over a pair of variables: a K×K log-weight
matrix, represented row-major. -/
abbrev BinaryFactor := List (List ℚ)

/-- Modelled from the spec: `unary_factor::times` adds log-weights
elementwise (pointwise product in probability space); the receiver keeps its
variable id. -/
def UFactor.times (f g : UFactor) : UFactor :=
  { f with logP := List.zipWith (· + ·) f.logP g.logP }

/-- Modelled from the spec: `unary_factor::divide` subtracts log-weights
elementwise (pointwise quotient in probability space). -/
def UFactor.divide (f g : UFactor) : UFactor :=
  { f with logP := List.zipWith (· - ·) f.logP g.logP }

/-- Modelled from the spec: `unary_factor::uniform` sets all K log-weights
to 0. -/
def uniformVec (k : ℕ) : List ℚ := List.replicate k 0

/-- The remaining log-domain vector operations of the graphlab factor
library.  Their numeric content (log-sum-exp, probability-space blending,
probability-space distance) is irrational over ℚ and no claim depends on it,
so they are kept abstract: every theorem below is proved for an arbitrary
interpretation `ops`. -/
structure FactorOps where
  /-- The operation `unary_factor::normalize`: rescale so exp-values sum to one. -/
  normalizeVec : List ℚ → List ℚ
  /-- The operation `unary_factor::convolve`: for each output state, log-sum-exp of
  binary-factor row plus input log-weights. -/
  convolveVec : BinaryFactor → List ℚ → List ℚ
  /-- The operation `unary_factor::damp new old α`: probability-space blend with weight α
  on the old value. -/
  dampVec : List ℚ → List ℚ → ℚ → List ℚ
  /-- The operation `unary_factor::residual`: scalar distance between two factors. -/
  residualVec : List ℚ → List ℚ → ℚ

/-- Normalization of a whole factor: the variable id is untouched. -/
def FactorOps.normalizeU (ops : FactorOps) (f : UFactor) : UFactor :=
  { f with logP := ops.normalizeVec f.logP }

/-- The data on each directed edge of the pairwise MRF (`struct edge_data`). -/
structure edge_data where
  message : UFactor
  old_message : UFactor
deriving DecidableEq, Repr

/-- The data on each variable of the pairwise MRF (`struct vertex_data`). -/
structure vertex_data where
  potential : UFactor
  belief : UFactor
deriving DecidableEq, Repr

/-- The mutable graph payloads visible to one update: vertex data and edge
data, indexed by vertex id / edge id. -/
structure GState where
  vdata : ℕ → vertex_data
  edata : ℕ → edge_data

/-- The read-only view `gl_types::iscope` hands to `bp_update`: the vertex
being updated, its in- and out-edge id lists, and the source/target maps of
the frozen topology. -/
structure Scope where
  v : ℕ
  inEdges : List ℕ
  outEdges : List ℕ
  src : ℕ → ℕ
  tgt : ℕ → ℕ

/-- Overwrite the data of one vertex. -/
def setVertex (s : GState) (w : ℕ) (d : vertex_data) : GState :=
  { s with vdata := fun x => if x = w then d else s.vdata x }

/-- Overwrite the data of one edge. -/
def setEdge (s : GState) (e : ℕ) (d : edge_data) : GState :=
  { s with edata := fun x => if x = e then d else s.edata x }

/-- Phase 1 of `bp_update`: for every incoming edge copy the current
`message` into `old_message` (lines 329–335 of the source). -/
def snapshotPhase (sc : Scope) (s : GState) : GState :=
  sc.inEdges.foldl
    (fun st e => setEdge st e { st.edata e with old_message := (st.edata e).message }) s

/-- Phase 2 of `bp_update`: `belief = potential`, multiplied by the old
message of every incoming edge, then normalized (lines 340–348). -/
def beliefOf (ops : FactorOps) (sc : Scope) (s : GState) : UFactor :=
  ops.normalizeU
    (sc.inEdges.foldl (fun b e => b.times ((s.edata e).old_message))
      ((s.vdata sc.v).potential))

/-- One iteration of the outbound-message loop of `bp_update`
(lines 359–396): cavity, convolve, normalize, damp, residual, commit,
conditional task. -/
def sendStep (ops : FactorOps) (factor : BinaryFactor) (bound damping : ℚ)
    (sc : Scope) (acc : GState × List (ℕ × ℚ)) (p : ℕ × ℕ) :
    GState × List (ℕ × ℚ) :=
  let st := acc.1
  let outeid := p.1
  let ineid := p.2
  let in_edge := st.edata ineid
  let out_edge := st.edata outeid
  -- cavity = belief; cavity.divide(in_edge.old_message); cavity.normalize()
  let cavity := ops.normalizeU (((st.vdata sc.v).belief).divide in_edge.old_message)
  -- tmp_msg.resize(arity); tmp_msg.var() = out var; tmp_msg.convolve; normalize
  let tmp0 : UFactor := { var := out_edge.message.var
                          logP := ops.normalizeVec (ops.convolveVec factor cavity.logP) }
  -- tmp_msg.damp(out_edge.message, damping)
  let tmp : UFactor := { tmp0 with logP := ops.dampVec tmp0.logP out_edge.message.logP damping }
  -- residual = tmp_msg.residual(out_edge.old_message)
  let residual := ops.residualVec tmp.logP out_edge.old_message.logP
  -- out_edge.message = tmp_msg
  let st' := setEdge st outeid { out_edge with message := tmp }
  -- if residual > bound, schedule the target of the out edge
  let tasks := if residual > bound then acc.2 ++ [(sc.tgt outeid, residual)] else acc.2
  (st', tasks)

/-- The `bp_update` update function (lines 304–397): snapshot incoming
messages, recompute the belief, then walk the paired (out, in) edge lists
producing the new outgoing messages and the scheduler tasks. -/
def bp_update (ops : FactorOps) (factor : BinaryFactor) (bound damping : ℚ)
    (sc : Scope) (s : GState) : GState × List (ℕ × ℚ) :=
  let s1 := snapshotPhase sc s
  let s2 := setVertex s1 sc.v { s1.vdata sc.v with belief := beliefOf ops sc s1 }
  (sc.outEdges.zip sc.inEdges).foldl (sendStep ops factor bound damping sc) (s2, [])

/-- The candidate outgoing message for one paired (out, in) edge, written as
the spec describes it: cavity = normalized quotient of the belief by the
incoming old message; candidate = normalized convolution with the shared
binary factor; then damped against the previous outgoing message. -/
def candidateMsg (ops : FactorOps) (factor : BinaryFactor) (damping : ℚ)
    (belief inOld prevOut : UFactor) : UFactor :=
  let cavity := ops.normalizeU (belief.divide inOld)
  let cand : UFactor := { var := prevOut.var
                          logP := ops.normalizeVec (ops.convolveVec factor cavity.logP) }
  { cand with logP := ops.dampVec cand.logP prevOut.logP damping }

/-- The belief `bp_update` computes, phrased over the pre-update state: the
potential multiplied by the (snapshotted) message of every incoming edge,
then normalized. -/
def newBelief (ops : FactorOps) (sc : Scope) (s : GState) : UFactor :=
  ops.normalizeU
    (sc.inEdges.foldl (fun b e => b.times ((s.edata e).message))
      ((s.vdata sc.v).potential))

/-- The scheduler task one loop iteration produces, phrased over the
pre-update state (with the belief already recomputed there). -/
def taskOf (ops : FactorOps) (factor : BinaryFactor) (bound damping : ℚ)
    (sc : Scope) (st : GState) (p : ℕ × ℕ) : Option (ℕ × ℚ) :=
  let tmp := candidateMsg ops factor damping ((st.vdata sc.v).belief)
      ((st.edata p.2).old_message) ((st.edata p.1).message)
  let r := ops.residualVec tmp.logP ((st.edata p.1).old_message).logP
  if r > bound then some (sc.tgt p.1, r) else none

/-- The scheduler task produced for one paired (out, in) edge, phrased over
the pre-update state: the candidate message's residual against the out
edge's previous `old_message`, reported against the out edge's target
exactly when it exceeds the bound. -/
def taskFor (ops : FactorOps) (factor : BinaryFactor) (bound damping : ℚ)
    (sc : Scope) (s : GState) (p : ℕ × ℕ) : Option (ℕ × ℚ) :=
  let cand := candidateMsg ops factor damping (newBelief ops sc s)
      ((s.edata p.2).message) ((s.edata p.1).message)
  let r := ops.residualVec cand.logP ((s.edata p.1).old_message).logP
  if r > bound then some (sc.tgt p.1, r) else none

/-! ### Graph construction (`construct_graph`, lines 400–465)

The `image` helper class and the graph container are not part of the
application source.  `img.vertid(i, j)` is pinned down by the source's own
assert `vertid == img.vertid(i, j)` against the sequential ids handed out by
`add_vertex` in row-major loop order, so it is the row-major index.  The
`size_t` arithmetic of the neighbor tests (`i-1 < rows` etc.) wraps modulo
2^64 and is modelled exactly. -/

/-- One more than the largest `size_t` value (2^64). -/
def SIZE_WRAP : ℕ := 18446744073709551616

/-- Decrement on `size_t`: wraps to 2^64 - 1 when `i = 0`. -/
def subOne64 (i : ℕ) : ℕ := (i + (SIZE_WRAP - 1)) % SIZE_WRAP

/-- Increment on `size_t`. -/
def addOne64 (i : ℕ) : ℕ := (i + 1) % SIZE_WRAP

/-- Modelled from the spec (and the source's consistency assert):
`img.vertid(i, j)` is the row-major cell index. -/
def vertid (cols i j : ℕ) : ℕ := i * cols + j

/-- The (source, target) pairs of the directed edges added for cell (i, j):
one to each of the up-to-4 axis-aligned neighbors whose (wrapped) index
passes the `size_t` bounds test, in source order: up, down, left, right. -/
def cellPairs (rows cols i j : ℕ) : List (ℕ × ℕ) :=
  (if subOne64 i < rows then [(vertid cols i j, vertid cols (subOne64 i) j)] else []) ++
  (if addOne64 i < rows then [(vertid cols i j, vertid cols (addOne64 i) j)] else []) ++
  (if subOne64 j < cols then [(vertid cols i j, vertid cols i (subOne64 j))] else []) ++
  (if addOne64 j < cols then [(vertid cols i j, vertid cols i (addOne64 j))] else [])

/-- All directed (source, target) edge pairs of the lattice, in the order
the construction loops add them. -/
def latticePairs (rows cols : ℕ) : List (ℕ × ℕ) :=
  (List.range rows).flatMap fun i => (List.range cols).flatMap fun j =>
    cellPairs rows cols i j

/-- The edge payload the construction gives every directed edge: a uniform,
normalized message (variable id = the edge's target) and an `old_message`
copied from it. -/
def initEdgeData (nrm : List ℚ → List ℚ) (K tgt : ℕ) : edge_data :=
  { message := { var := tgt, logP := nrm (uniformVec K) }
    old_message := { var := tgt, logP := nrm (uniformVec K) } }

/-- A directed edge record as added by `construct_graph`: endpoints plus the
initial payload. -/
structure EdgeRec where
  src : ℕ
  tgt : ℕ
  data : edge_data
deriving DecidableEq, Repr

/-- The directed edge records added for cell (i, j), mirroring the four
guarded `add_edge` calls of the source. -/
def cellEdges (nrm : List ℚ → List ℚ) (K rows cols i j : ℕ) : List EdgeRec :=
  (if subOne64 i < rows then
    [⟨vertid cols i j, vertid cols (subOne64 i) j,
      initEdgeData nrm K (vertid cols (subOne64 i) j)⟩] else []) ++
  (if addOne64 i < rows then
    [⟨vertid cols i j, vertid cols (addOne64 i) j,
      initEdgeData nrm K (vertid cols (addOne64 i) j)⟩] else []) ++
  (if subOne64 j < cols then
    [⟨vertid cols i j, vertid cols i (subOne64 j),
      initEdgeData nrm K (vertid cols i (subOne64 j))⟩] else []) ++
  (if addOne64 j < cols then
    [⟨vertid cols i j, vertid cols i (addOne64 j),
      initEdgeData nrm K (vertid cols i (addOne64 j))⟩] else [])

/-- All directed edge records of the lattice MRF, in construction order. -/
def constructEdges (nrm : List ℚ → List ℚ) (K rows cols : ℕ) : List EdgeRec :=
  (List.range rows).flatMap fun i => (List.range cols).flatMap fun j =>
    cellEdges nrm K rows cols i j

/-- The raw (un-normalized) node potential for observed intensity `obs`:
log-weight `-(obs - pred)² / (2 σ²)` at each state `pred < K`
(lines 421–424 of the source; `sigmaSq = sigma * sigma`). -/
def nodePotentialRaw (obs sigmaSq : ℚ) (K : ℕ) : List ℚ :=
  (List.range K).map fun (pred : ℕ) =>
    -((obs - (pred : ℚ)) * (obs - (pred : ℚ))) / (2 * sigmaSq)

/-- The vertex data added for each cell in row-major order: the normalized
observation potential, and the belief left at its loop-invariant value, the
normalized uniform factor (lines 404–431). -/
def constructVertices (nrm : List ℚ → List ℚ) (img : ℕ → ℕ → ℚ)
    (K rows cols : ℕ) (sigma : ℚ) : List vertex_data :=
  (List.range rows).flatMap fun i => (List.range cols).map fun j =>
    { potential := { var := vertid cols i j
                     logP := nrm (nodePotentialRaw (img i j) (sigma * sigma) K) }
      belief := { var := vertid cols i j, logP := nrm (uniformVec K) } }

/-- The function `construct_graph` (lines 400–465): the vertex list in row-major order
and the directed edge records in construction order. -/
def construct_graph (nrm : List ℚ → List ℚ) (img : ℕ → ℕ → ℚ)
    (K rows cols : ℕ) (sigma : ℚ) : List vertex_data × List EdgeRec :=
  (constructVertices nrm img K rows cols sigma, constructEdges nrm K rows cols)

/-- The sorted list of targets of a vertex's out-edges.  Modelled from the
spec: `finalize()` sorts each vertex's edge lists by neighbor id, which is
the pairing table the O(1) reverse-edge lookup relies on. -/
def sortedOutTargets (rows cols v : ℕ) : List ℕ :=
  (((latticePairs rows cols).filter (fun p => p.1 = v)).map Prod.snd).mergeSort

/-- The sorted list of sources of a vertex's in-edges (see
`sortedOutTargets`). -/
def sortedInSources (rows cols v : ℕ) : List ℕ :=
  (((latticePairs rows cols).filter (fun p => p.2 = v)).map Prod.fst).mergeSort

/-- Symmetric 4-neighbor lattice adjacency between in-bounds cells. -/
def Adj (rows cols i j i2 j2 : ℕ) : Prop :=
  i < rows ∧ j < cols ∧ i2 < rows ∧ j2 < cols ∧
    ((j = j2 ∧ (i = i2 + 1 ∨ i2 = i + 1)) ∨ (i = i2 ∧ (j = j2 + 1 ∨ j2 = j + 1)))

instance (rows cols i j i2 j2 : ℕ) : Decidable (Adj rows cols i j i2 j2) := by
  unfold Adj; infer_instance

/-! ### The smoothing-policy dispatch in `main` (lines 236–245) -/

/-- Modelled from the spec: `binary_factor::set_as_agreement(λ)` rewards
equal states by λ relative to unequal ones. -/
def set_as_agreement (K : ℕ) (lam : ℚ) : BinaryFactor :=
  (List.range K).map fun i => (List.range K).map fun j =>
    if i = j then 0 else -lam

/-- Modelled from the spec: `binary_factor::set_as_laplace(λ)` penalizes
proportionally to the distance between states, scaled by λ. -/
def set_as_laplace (K : ℕ) (lam : ℚ) : BinaryFactor :=
  (List.range K).map fun i => (List.range K).map fun j =>
    -((((i : ℤ) - (j : ℤ)).natAbs : ℚ)) * lam

/-- What `main` does with the smoothing policy: either the engine is run
with the selected shared binary factor, or the program prints the error and
returns EXIT_FAILURE before the engine is ever started. -/
inductive SmoothingOutcome where
  | engineRun : BinaryFactor → SmoothingOutcome
  | exitFailure : SmoothingOutcome
deriving DecidableEq, Repr

/-- The smoothing dispatch of `main` (lines 238–245): "square" selects the
agreement factor, "laplace" the distance-penalty factor, anything else
fails before inference starts. -/
def selectSmoothing (smoothing : String) (lam : ℚ) (K : ℕ) : SmoothingOutcome :=
  if smoothing = "square" then .engineRun (set_as_agreement K lam)
  else if smoothing = "laplace" then .engineRun (set_as_laplace K lam)
  else .exitFailure

/-! ### Concrete instances used by the witnesses -/

/-- A concrete interpretation of the abstract factor operations, used only
to witness the `bp_update` theorems on a concrete input. -/
def demoOps : FactorOps where
  normalizeVec := fun l => l
  convolveVec := fun _ l => l
  dampVec := fun a _ _ => a
  residualVec := fun a b => ((a.zip b).map fun p => |p.1 - p.2|).sum

/-- A two-vertex scope: vertex 0 with one incoming edge (id 1, from vertex
1) and one outgoing edge (id 0, to vertex 1). -/
def demoScope : Scope where
  v := 0
  inEdges := [1]
  outEdges := [0]
  src := fun e => if e = 0 then 0 else 1
  tgt := fun e => if e = 0 then 1 else 0

/-- Concrete graph payloads for the witness scope. -/
def demoState : GState where
  vdata := fun _ => { potential := ⟨0, [1, 2]⟩, belief := ⟨0, [0, 0]⟩ }
  edata := fun e =>
    if e = 0 then { message := ⟨1, [3, 5]⟩, old_message := ⟨1, [7, 2]⟩ }
    else { message := ⟨0, [2, 9]⟩, old_message := ⟨0, [4, 4]⟩ }

section FoldLemmas

variable (ops : FactorOps) (factor : BinaryFactor) (bound damping : ℚ) (sc : Scope)

/-- A foldl over a list is unchanged when the step functions agree on the
list's members. -/
theorem foldl_congr_mem {α β : Type} {f g : β → α → β} :
    ∀ (l : List α) (b : β), (∀ c, ∀ a ∈ l, f c a = g c a) →
      l.foldl f b = l.foldl g b := by
  intro l
  induction l with
  | nil => intro b _; rfl
  | cons a l ih =>
      intro b h
      simp only [List.foldl_cons]
      rw [h b a (List.mem_cons_self a l)]
      exact ih _ fun c x hx => h c x (List.mem_cons_of_mem a hx)

/-- The send phase never touches vertex data. -/
theorem sendFold_vdata (L : List (ℕ × ℕ)) :
    ∀ (st : GState) (ts : List (ℕ × ℚ)),
      (L.foldl (sendStep ops factor bound damping sc) (st, ts)).1.vdata = st.vdata := by
  induction L with
  | nil => intro st ts; rfl
  | cons p L ih =>
      intro st ts
      simp only [List.foldl_cons]
      rw [show sendStep ops factor bound damping sc (st, ts) p =
        ((sendStep ops factor bound damping sc (st, ts) p).1,
         (sendStep ops factor bound damping sc (st, ts) p).2) from rfl]
      rw [ih]
      rfl

/-- The send phase never changes any edge's `old_message`. -/
theorem sendFold_old_message (L : List (ℕ × ℕ)) :
    ∀ (st : GState) (ts : List (ℕ × ℚ)) (e : ℕ),
      (((L.foldl (sendStep ops factor bound damping sc) (st, ts)).1.edata e)).old_message =
        (st.edata e).old_message := by
  induction L with
  | nil => intro st ts e; rfl
  | cons p L ih =>
      intro st ts e
      simp only [List.foldl_cons]
      rw [show sendStep ops factor bound damping sc (st, ts) p =
        ((sendStep ops factor bound damping sc (st, ts) p).1,
         (sendStep ops factor bound damping sc (st, ts) p).2) from rfl]
      rw [ih]
      simp only [sendStep, setEdge]
      by_cases he : e = p.1 <;> simp [he]

/-- Edges whose id is not among the out-edge ids of the loop are untouched
by the send phase. -/
theorem sendFold_untouched (L : List (ℕ × ℕ)) :
    ∀ (st : GState) (ts : List (ℕ × ℚ)) (e : ℕ), e ∉ L.map Prod.fst →
      ((L.foldl (sendStep ops factor bound damping sc) (st, ts)).1.edata e) = st.edata e := by
  induction L with
  | nil => intro st ts e _; rfl
  | cons p L ih =>
      intro st ts e he
      simp only [List.map_cons, List.mem_cons] at he
      push_neg at he
      simp only [List.foldl_cons]
      rw [show sendStep ops factor bound damping sc (st, ts) p =
        ((sendStep ops factor bound damping sc (st, ts) p).1,
         (sendStep ops factor bound damping sc (st, ts) p).2) from rfl]
      rw [ih _ _ _ he.2]
      simp only [sendStep, setEdge]
      simp [he.1]

theorem setEdge_edata (s : GState) (e : ℕ) (d : edge_data) (x : ℕ) :
    (setEdge s e d).edata x = if x = e then d else s.edata x := rfl

theorem setEdge_vdata (s : GState) (e : ℕ) (d : edge_data) :
    (setEdge s e d).vdata = s.vdata := rfl

/-- One iteration of the outbound loop, written non-recursively: it commits
the candidate message on the out edge and appends the task (if any). -/
theorem sendStep_eq (st : GState) (ts : List (ℕ × ℚ)) (p : ℕ × ℕ) :
    sendStep ops factor bound damping sc (st, ts) p =
      (setEdge st p.1 { st.edata p.1 with
          message := candidateMsg ops factor damping ((st.vdata sc.v).belief)
            ((st.edata p.2).old_message) ((st.edata p.1).message) },
       ts ++ (taskOf ops factor bound damping sc st p).toList) := by
  simp only [sendStep, taskOf, candidateMsg]
  split <;> simp

/-- The task computation only looks at the center vertex's data and at the
two edges of the pair. -/
theorem taskOf_congr (st st' : GState) (p : ℕ × ℕ)
    (hv : st'.vdata sc.v = st.vdata sc.v)
    (h1 : st'.edata p.1 = st.edata p.1) (h2 : st'.edata p.2 = st.edata p.2) :
    taskOf ops factor bound damping sc st' p = taskOf ops factor bound damping sc st p := by
  simp only [taskOf, hv, h1, h2]

/-- Final value of each out edge written by the loop: provided the out-edge
ids are distinct and no in-edge id of the loop is also an out-edge id, the
pair `(outeid, ineid)` ends with `message` equal to the candidate computed
from the pre-loop state, and `old_message` untouched. -/
theorem sendFold_message (L : List (ℕ × ℕ)) :
    ∀ (st : GState) (ts : List (ℕ × ℚ)),
      (L.map Prod.fst).Nodup →
      (∀ p ∈ L, p.2 ∉ L.map Prod.fst) →
      ∀ p ∈ L,
        ((L.foldl (sendStep ops factor bound damping sc) (st, ts)).1.edata p.1) =
          { st.edata p.1 with
            message := candidateMsg ops factor damping ((st.vdata sc.v).belief)
              ((st.edata p.2).old_message) ((st.edata p.1).message) } := by
  induction L with
  | nil => intro st ts _ _ p hp; exact absurd hp (List.not_mem_nil p)
  | cons q L ih =>
      intro st ts hnd hdisj p hp
      simp only [List.map_cons, List.nodup_cons] at hnd
      have hq1 : q.1 ∉ L.map Prod.fst := hnd.1
      have hq2 : q.2 ≠ q.1 := by
        have := hdisj q (List.mem_cons_self q L)
        simp only [List.map_cons, List.mem_cons] at this
        push_neg at this
        exact this.1
      simp only [List.foldl_cons, sendStep_eq]
      -- the state after the head iteration
      have hvd : (setEdge st q.1 { st.edata q.1 with
          message := candidateMsg ops factor damping ((st.vdata sc.v).belief)
            ((st.edata q.2).old_message) ((st.edata q.1).message) }).vdata = st.vdata := rfl
      rcases List.mem_cons.mp hp with hpq | hpL
      · -- the head pair itself: later iterations do not touch q.1
        subst hpq
        rw [sendFold_untouched ops factor bound damping sc L _ _ _ hq1]
        simp [setEdge_edata]
      · -- a tail pair: the head write is to a different edge id
        have hp1 : p.1 ≠ q.1 := by
          intro h
          exact hq1 (h ▸ List.mem_map_of_mem Prod.fst hpL)
        have hp2 : p.2 ≠ q.1 := by
          have := hdisj p (List.mem_cons_of_mem q hpL)
          simp only [List.map_cons, List.mem_cons] at this
          push_neg at this
          exact this.1
        have hdisj' : ∀ r ∈ L, r.2 ∉ L.map Prod.fst := by
          intro r hr
          have := hdisj r (List.mem_cons_of_mem q hr)
          simp only [List.map_cons, List.mem_cons] at this
          push_neg at this
          exact this.2
        rw [ih _ _ hnd.2 hdisj' p hpL]
        simp [setEdge_edata, setEdge_vdata, hp1, hp2]

/-- The tasks produced by the loop, provided the out-edge ids are distinct
and no in-edge id of the loop is also an out-edge id: exactly those pairs
whose residual exceeds the bound, in loop order, each carrying the target
vertex of the out edge and the residual as priority. -/
theorem sendFold_tasks (L : List (ℕ × ℕ)) :
    ∀ (st : GState) (ts : List (ℕ × ℚ)),
      (L.map Prod.fst).Nodup →
      (∀ p ∈ L, p.2 ∉ L.map Prod.fst) →
      (L.foldl (sendStep ops factor bound damping sc) (st, ts)).2 =
        ts ++ L.filterMap (taskOf ops factor bound damping sc st) := by
  induction L with
  | nil => intro st ts _ _; simp
  | cons q L ih =>
      intro st ts hnd hdisj
      simp only [List.map_cons, List.nodup_cons] at hnd
      have hdisj' : ∀ r ∈ L, r.2 ∉ L.map Prod.fst := by
        intro r hr
        have := hdisj r (List.mem_cons_of_mem q hr)
        simp only [List.map_cons, List.mem_cons] at this
        push_neg at this
        exact this.2
      simp only [List.foldl_cons, sendStep_eq]
      rw [ih _ _ hnd.2 hdisj']
      have hcongr : ∀ r ∈ L,
          taskOf ops factor bound damping sc
            (setEdge st q.1 { st.edata q.1 with
              message := candidateMsg ops factor damping ((st.vdata sc.v).belief)
                ((st.edata q.2).old_message) ((st.edata q.1).message) }) r =
          taskOf ops factor bound damping sc st r := by
        intro r hr
        have hr1 : r.1 ≠ q.1 := by
          intro h
          exact hnd.1 (h ▸ List.mem_map_of_mem Prod.fst hr)
        have hr2 : r.2 ≠ q.1 := by
          have := hdisj r (List.mem_cons_of_mem q hr)
          simp only [List.map_cons, List.mem_cons] at this
          push_neg at this
          exact this.1
        exact taskOf_congr ops factor bound damping sc _ _ r rfl
          (by simp [setEdge_edata, hr1]) (by simp [setEdge_edata, hr2])
      rw [List.filterMap_congr hcongr, List.filterMap_cons]
      cases taskOf ops factor bound damping sc st q <;> simp

end FoldLemmas

theorem GState.ext' {a b : GState} (hv : a.vdata = b.vdata) (he : a.edata = b.edata) :
    a = b := by
  cases a; cases b; simp_all

theorem snapFold_vdata (l : List ℕ) :
    ∀ (s : GState),
      (l.foldl (fun st e => setEdge st e { st.edata e with
        old_message := (st.edata e).message }) s).vdata = s.vdata := by
  induction l with
  | nil => intro s; rfl
  | cons e l ih => intro s; simp only [List.foldl_cons]; rw [ih]; rfl

/-- After the snapshot fold, every edge on the list holds its (unchanged)
current message in both fields; edges off the list are untouched. -/
theorem snapFold_edata (l : List ℕ) :
    ∀ (s : GState) (x : ℕ),
      ((l.foldl (fun st e => setEdge st e { st.edata e with
        old_message := (st.edata e).message }) s).edata x) =
      if x ∈ l then { message := (s.edata x).message, old_message := (s.edata x).message }
      else s.edata x := by
  induction l with
  | nil => intro s x; simp
  | cons e l ih =>
      intro s x
      simp only [List.foldl_cons]
      rw [ih]
      by_cases hxl : x ∈ l
      · simp [hxl, setEdge_edata, List.mem_cons]
        by_cases hxe : x = e <;> simp [hxe]
      · by_cases hxe : x = e
        · subst hxe
          simp [hxl, setEdge_edata]
        · simp [hxl, hxe, setEdge_edata, List.mem_cons]

theorem snapshotPhase_vdata (sc : Scope) (s : GState) :
    (snapshotPhase sc s).vdata = s.vdata := snapFold_vdata sc.inEdges s

theorem snapshotPhase_edata (sc : Scope) (s : GState) (x : ℕ) :
    (snapshotPhase sc s).edata x =
      if x ∈ sc.inEdges then
        { message := (s.edata x).message, old_message := (s.edata x).message }
      else s.edata x := snapFold_edata sc.inEdges s x

/-- The belief computed from the snapshotted state is the belief formula
over the pre-update state's current incoming messages. -/
theorem beliefOf_snapshot (ops : FactorOps) (sc : Scope) (s : GState) :
    beliefOf ops sc (snapshotPhase sc s) = newBelief ops sc s := by
  unfold beliefOf newBelief
  rw [snapshotPhase_vdata]
  congr 1
  apply foldl_congr_mem
  intro c e he
  rw [snapshotPhase_edata]
  simp [he]

theorem bp_update_eq (ops : FactorOps) (factor : BinaryFactor) (bound damping : ℚ)
    (sc : Scope) (s : GState) :
    bp_update ops factor bound damping sc s =
      (sc.outEdges.zip sc.inEdges).foldl (sendStep ops factor bound damping sc)
        (setVertex (snapshotPhase sc s) sc.v
          { (snapshotPhase sc s).vdata sc.v with
            belief := beliefOf ops sc (snapshotPhase sc s) }, []) := rfl

theorem mem_fst_zip {l l' : List ℕ} {e : ℕ} (h : e ∈ (l.zip l').map Prod.fst) : e ∈ l := by
  rcases List.mem_map.mp h with ⟨p, hp, hpe⟩
  exact hpe ▸ (List.of_mem_zip hp).1

theorem sublist_map_fst_zip {α β : Type} :
    ∀ (l : List α) (l' : List β), ((l.zip l').map Prod.fst).Sublist l := by
  intro l
  induction l with
  | nil => intro l'; simp
  | cons a l ih =>
      intro l'
      cases l' with
      | nil => simp
      | cons b l' =>
          simp only [List.zip_cons_cons, List.map_cons]
          exact (ih l').cons₂ a

theorem setVertex_vdata (s : GState) (w : ℕ) (d : vertex_data) (x : ℕ) :
    (setVertex s w d).vdata x = if x = w then d else s.vdata x := rfl

theorem setVertex_edata (s : GState) (w : ℕ) (d : vertex_data) :
    (setVertex s w d).edata = s.edata := rfl

section UpdateTheorems

variable (ops : FactorOps) (factor : BinaryFactor) (bound damping : ℚ)
variable (sc : Scope) (s : GState)

/-- The out-edge ids paired by the loop are distinct and no in-edge id is
also a paired out-edge id, given the per-vertex disjointness of the scope's
lists. -/
theorem zip_hyps (hnd : sc.outEdges.Nodup)
    (hdisj : ∀ e ∈ sc.inEdges, e ∉ sc.outEdges) :
    (((sc.outEdges.zip sc.inEdges).map Prod.fst).Nodup ∧
      ∀ p ∈ sc.outEdges.zip sc.inEdges,
        p.2 ∉ (sc.outEdges.zip sc.inEdges).map Prod.fst) := by
  refine ⟨hnd.sublist (sublist_map_fst_zip _ _), ?_⟩
  intro p hp hmem
  exact hdisj p.2 (List.of_mem_zip hp).2 (mem_fst_zip hmem)

/-- C1: in `bp_update`, for every paired (incoming, outgoing) edge of the
vertex, the new outgoing message is the candidate obtained by dividing the
belief by that incoming edge's old message (the snapshot of its current
message), normalizing, convolving with the shared binary factor,
normalizing, and damping against the previous outgoing message with the
damping factor; this candidate is committed as the edge's new message. -/
theorem C1_outgoing_message_formula
    (hnd : sc.outEdges.Nodup)
    (hdisj : ∀ e ∈ sc.inEdges, e ∉ sc.outEdges)
    (i oe ie : ℕ) (hoe : sc.outEdges[i]? = some oe) (hie : sc.inEdges[i]? = some ie) :
    (((bp_update ops factor bound damping sc s).1).edata oe).message =
      candidateMsg ops factor damping (newBelief ops sc s)
        ((s.edata ie).message) ((s.edata oe).message) := by
  obtain ⟨hio, hoeq⟩ := List.getElem?_eq_some_iff.mp hoe
  obtain ⟨hii, hieq⟩ := List.getElem?_eq_some_iff.mp hie
  have hiL : i < (sc.outEdges.zip sc.inEdges).length := by
    simp only [List.length_zip]
    omega
  have hmem : (oe, ie) ∈ sc.outEdges.zip sc.inEdges := by
    have hL : (sc.outEdges.zip sc.inEdges)[i] = (oe, ie) := by
      rw [List.getElem_zip, hoeq, hieq]
    exact hL ▸ List.getElem_mem hiL
  have hoe_mem : oe ∈ sc.outEdges := hoeq ▸ List.getElem_mem hio
  have hie_mem : ie ∈ sc.inEdges := hieq ▸ List.getElem_mem hii
  have hoe_nin : oe ∉ sc.inEdges := fun h => hdisj oe h hoe_mem
  obtain ⟨hndL, hdisjL⟩ := zip_hyps sc hnd hdisj
  rw [bp_update_eq]
  rw [show oe = ((oe, ie) : ℕ × ℕ).1 from rfl]
  rw [sendFold_message ops factor bound damping sc _ _ _ hndL hdisjL (oe, ie) hmem]
  simp only [setVertex_vdata, setVertex_edata, if_pos rfl, ite_true, beliefOf_snapshot,
    snapshotPhase_edata, if_pos hie_mem, if_neg hoe_nin]

/-- C2: in `bp_update`, the vertex's belief is recomputed as the potential
multiplied (log-domain added) by the `old_message` of every incoming edge
and then normalized; that belief is the one held in the post-update state,
and it equals the same fold over the pre-update current messages (which the
snapshot copied into `old_message`), so it is fixed before any outgoing
message is computed from it. -/
theorem C2_belief_formula :
    ((bp_update ops factor bound damping sc s).1.vdata sc.v).belief =
      ops.normalizeU (sc.inEdges.foldl
        (fun b e => b.times (((snapshotPhase sc s).edata e).old_message))
        ((s.vdata sc.v).potential)) ∧
    ((bp_update ops factor bound damping sc s).1.vdata sc.v).belief =
      newBelief ops sc s := by
  have hbel : ((bp_update ops factor bound damping sc s).1.vdata sc.v).belief =
      beliefOf ops sc (snapshotPhase sc s) := by
    rw [bp_update_eq, sendFold_vdata]
    simp [setVertex_vdata]
  refine ⟨?_, by rw [hbel, beliefOf_snapshot]⟩
  rw [hbel]
  unfold beliefOf
  rw [snapshotPhase_vdata]

/-- C3: at the start of every `bp_update` call the current `message` of
every incoming edge is copied into `old_message`; the final state of every
incoming edge holds that snapshot (its current message is untouched), and
the whole update's result is insensitive to the incoming edges' prior
`old_message` contents — every later read of neighbor messages goes through
the snapshot. -/
theorem C3_snapshot
    (hdisj : ∀ e ∈ sc.inEdges, e ∉ sc.outEdges) :
    (∀ e ∈ sc.inEdges,
        (bp_update ops factor bound damping sc s).1.edata e =
          { message := (s.edata e).message, old_message := (s.edata e).message }) ∧
    (∀ s' : GState, s'.vdata = s.vdata →
        (∀ e ∈ sc.inEdges, (s'.edata e).message = (s.edata e).message) →
        (∀ e, e ∉ sc.inEdges → s'.edata e = s.edata e) →
        bp_update ops factor bound damping sc s' =
          bp_update ops factor bound damping sc s) := by
  constructor
  · intro e he
    have hnot : e ∉ (sc.outEdges.zip sc.inEdges).map Prod.fst := by
      intro hmem
      exact hdisj e he (mem_fst_zip hmem)
    rw [bp_update_eq,
      sendFold_untouched ops factor bound damping sc _ _ _ _ hnot]
    simp only [setVertex_edata, snapshotPhase_edata, if_pos he]
  · intro s' hv hmsg hoth
    have hsnap : snapshotPhase sc s' = snapshotPhase sc s := by
      apply GState.ext'
      · rw [snapshotPhase_vdata, snapshotPhase_vdata, hv]
      · funext x
        rw [snapshotPhase_edata, snapshotPhase_edata]
        by_cases hx : x ∈ sc.inEdges
        · simp [hx, hmsg x hx]
        · simp [hx, hoth x hx]
    rw [bp_update_eq, bp_update_eq, hsnap]

/-- C4: the tasks `bp_update` reports to the scheduler are exactly, for each
paired (out, in) edge, the pair (target vertex of the out edge, residual)
where the residual is the distance between the damped candidate message and
the out edge's previous `old_message`, kept if and only if it is strictly
greater than the bound. -/
theorem C4_residual_tasks
    (hnd : sc.outEdges.Nodup)
    (hdisj : ∀ e ∈ sc.inEdges, e ∉ sc.outEdges) :
    (bp_update ops factor bound damping sc s).2 =
      (sc.outEdges.zip sc.inEdges).filterMap
        (taskFor ops factor bound damping sc s) := by
  obtain ⟨hndL, hdisjL⟩ := zip_hyps sc hnd hdisj
  rw [bp_update_eq]
  rw [sendFold_tasks ops factor bound damping sc _ _ _ hndL hdisjL]
  rw [List.nil_append]
  apply List.filterMap_congr
  intro p hp
  have hp1_mem : p.1 ∈ sc.outEdges := (List.of_mem_zip hp).1
  have hp2_mem : p.2 ∈ sc.inEdges := (List.of_mem_zip hp).2
  have hp1_nin : p.1 ∉ sc.inEdges := fun h => hdisj p.1 h hp1_mem
  simp only [taskOf, taskFor, setVertex_vdata, setVertex_edata, if_pos rfl, ite_true,
    beliefOf_snapshot, snapshotPhase_edata, if_pos hp2_mem, if_neg hp1_nin]

/-- C9: the side effects of one `bp_update` call are confined to the
vertex's belief and the `message` fields of its outgoing edges: every other
vertex's data is untouched, the vertex's potential is untouched, edges that
are neither in- nor out-edges are untouched, incoming edges keep their
current `message`, their `old_message` ends as the snapshot (never
rewritten after it is taken), and no other edge's `old_message` changes. -/
theorem C9_frame
    (hdisj : ∀ e ∈ sc.inEdges, e ∉ sc.outEdges) :
    (∀ w, w ≠ sc.v →
        (bp_update ops factor bound damping sc s).1.vdata w = s.vdata w) ∧
    ((bp_update ops factor bound damping sc s).1.vdata sc.v).potential =
        (s.vdata sc.v).potential ∧
    (∀ e, e ∉ sc.inEdges → e ∉ sc.outEdges →
        (bp_update ops factor bound damping sc s).1.edata e = s.edata e) ∧
    (∀ e ∈ sc.inEdges,
        ((bp_update ops factor bound damping sc s).1.edata e).message =
          (s.edata e).message) ∧
    (∀ e ∈ sc.inEdges,
        ((bp_update ops factor bound damping sc s).1.edata e).old_message =
          (s.edata e).message) ∧
    (∀ e, e ∉ sc.inEdges →
        ((bp_update ops factor bound damping sc s).1.edata e).old_message =
          (s.edata e).old_message) := by
  refine ⟨?_, ?_, ?_, ?_, ?_, ?_⟩
  · intro w hw
    rw [bp_update_eq, sendFold_vdata]
    simp only [setVertex_vdata, if_neg hw]
    rw [snapshotPhase_vdata]
  · rw [bp_update_eq, sendFold_vdata]
    simp only [setVertex_vdata, if_pos rfl, ite_true]
    rw [snapshotPhase_vdata]
  · intro e hin hout
    have hnot : e ∉ (sc.outEdges.zip sc.inEdges).map Prod.fst :=
      fun hmem => hout (mem_fst_zip hmem)
    rw [bp_update_eq,
      sendFold_untouched ops factor bound damping sc _ _ _ _ hnot]
    simp only [setVertex_edata, snapshotPhase_edata, if_neg hin]
  · intro e he
    have hnot : e ∉ (sc.outEdges.zip sc.inEdges).map Prod.fst :=
      fun hmem => hdisj e he (mem_fst_zip hmem)
    rw [bp_update_eq,
      sendFold_untouched ops factor bound damping sc _ _ _ _ hnot]
    simp only [setVertex_edata, snapshotPhase_edata, if_pos he]
  · intro e he
    have hnot : e ∉ (sc.outEdges.zip sc.inEdges).map Prod.fst :=
      fun hmem => hdisj e he (mem_fst_zip hmem)
    rw [bp_update_eq,
      sendFold_untouched ops factor bound damping sc _ _ _ _ hnot]
    simp only [setVertex_edata, snapshotPhase_edata, if_pos he]
  · intro e he
    rw [bp_update_eq, sendFold_old_message]
    simp only [setVertex_edata, snapshotPhase_edata, if_neg he]

end UpdateTheorems

/-- Witness for C1 on the concrete two-vertex instance. -/
theorem C1_outgoing_message_formula_witness :
    demoScope.outEdges.Nodup ∧ (∀ e ∈ demoScope.inEdges, e ∉ demoScope.outEdges) ∧
    demoScope.outEdges[0]? = some 0 ∧ demoScope.inEdges[0]? = some 1 ∧
    ((bp_update demoOps [] 0 (1/10) demoScope demoState).1.edata 0).message =
      candidateMsg demoOps [] (1/10) (newBelief demoOps demoScope demoState)
        ((demoState.edata 1).message) ((demoState.edata 0).message) :=
  ⟨by decide, by decide, by decide, by decide,
    C1_outgoing_message_formula demoOps [] 0 (1/10) demoScope demoState
      (by decide) (by decide) 0 0 1 (by decide) (by decide)⟩

/-- Witness for C3 on the concrete two-vertex instance. -/
theorem C3_snapshot_witness :
    (∀ e ∈ demoScope.inEdges, e ∉ demoScope.outEdges) ∧
    ((∀ e ∈ demoScope.inEdges,
        (bp_update demoOps [] 0 (1/10) demoScope demoState).1.edata e =
          { message := (demoState.edata e).message
            old_message := (demoState.edata e).message }) ∧
     (∀ s' : GState, s'.vdata = demoState.vdata →
        (∀ e ∈ demoScope.inEdges, (s'.edata e).message = (demoState.edata e).message) →
        (∀ e, e ∉ demoScope.inEdges → s'.edata e = demoState.edata e) →
        bp_update demoOps [] 0 (1/10) demoScope s' =
          bp_update demoOps [] 0 (1/10) demoScope demoState)) :=
  ⟨by decide, C3_snapshot demoOps [] 0 (1/10) demoScope demoState (by decide)⟩

/-- Witness for C4 on the concrete two-vertex instance. -/
theorem C4_residual_tasks_witness :
    demoScope.outEdges.Nodup ∧ (∀ e ∈ demoScope.inEdges, e ∉ demoScope.outEdges) ∧
    (bp_update demoOps [] 0 (1/10) demoScope demoState).2 =
      (demoScope.outEdges.zip demoScope.inEdges).filterMap
        (taskFor demoOps [] 0 (1/10) demoScope demoState) :=
  ⟨by decide, by decide,
    C4_residual_tasks demoOps [] 0 (1/10) demoScope demoState (by decide) (by decide)⟩

/-- Witness for C9 on the concrete two-vertex instance. -/
theorem C9_frame_witness :
    (∀ e ∈ demoScope.inEdges, e ∉ demoScope.outEdges) ∧
    ((∀ w, w ≠ demoScope.v →
        (bp_update demoOps [] 0 (1/10) demoScope demoState).1.vdata w =
          demoState.vdata w) ∧
     ((bp_update demoOps [] 0 (1/10) demoScope demoState).1.vdata demoScope.v).potential =
        (demoState.vdata demoScope.v).potential ∧
     (∀ e, e ∉ demoScope.inEdges → e ∉ demoScope.outEdges →
        (bp_update demoOps [] 0 (1/10) demoScope demoState).1.edata e =
          demoState.edata e) ∧
     (∀ e ∈ demoScope.inEdges,
        ((bp_update demoOps [] 0 (1/10) demoScope demoState).1.edata e).message =
          (demoState.edata e).message) ∧
     (∀ e ∈ demoScope.inEdges,
        ((bp_update demoOps [] 0 (1/10) demoScope demoState).1.edata e).old_message =
          (demoState.edata e).message) ∧
     (∀ e, e ∉ demoScope.inEdges →
        ((bp_update demoOps [] 0 (1/10) demoScope demoState).1.edata e).old_message =
          (demoState.edata e).old_message)) :=
  ⟨by decide, C9_frame demoOps [] 0 (1/10) demoScope demoState (by decide)⟩

/-- C8: an unrecognized smoothing policy name makes `main` fail (exit with
failure) before the engine ever runs, for every policy string other than
"square" and "laplace"; the recognized names select the agreement factor
resp. the distance-penalty (laplace) factor built from λ. -/
theorem C8_smoothing_dispatch (smoothing : String) (lam : ℚ) (K : ℕ) :
    (selectSmoothing smoothing lam K = .exitFailure ↔
      smoothing ≠ "square" ∧ smoothing ≠ "laplace") ∧
    selectSmoothing "square" lam K = .engineRun (set_as_agreement K lam) ∧
    selectSmoothing "laplace" lam K = .engineRun (set_as_laplace K lam) := by
  refine ⟨?_, by simp [selectSmoothing], by simp [selectSmoothing]⟩
  unfold selectSmoothing
  by_cases h1 : smoothing = "square" <;> by_cases h2 : smoothing = "laplace" <;>
    simp [h1, h2]

theorem subOne64_lt_iff {n i : ℕ} (hn : n < SIZE_WRAP) (hi : i < n) :
    subOne64 i < n ↔ 1 ≤ i := by
  unfold subOne64 SIZE_WRAP at *
  omega

theorem addOne64_lt_iff {n i : ℕ} (hn : n < SIZE_WRAP) (hi : i < n) :
    addOne64 i < n ↔ i + 1 < n := by
  unfold addOne64 SIZE_WRAP at *
  omega

theorem subOne64_eq {i : ℕ} (h1 : 1 ≤ i) (h2 : i < SIZE_WRAP) : subOne64 i = i - 1 := by
  unfold subOne64 SIZE_WRAP at *
  omega

/-- Row-major cell indexing is injective on in-range column indices. -/
theorem vertid_inj (cols i j i2 j2 : ℕ) (hj : j < cols) (hj2 : j2 < cols)
    (h : vertid cols i j = vertid cols i2 j2) : i = i2 ∧ j = j2 := by
  unfold vertid at h
  have hii : i = i2 := by
    rcases lt_trichotomy i i2 with hlt | heq | hgt
    · have h1 : (i + 1) * cols ≤ i2 * cols := Nat.mul_le_mul_right cols (by omega)
      rw [Nat.succ_mul] at h1
      omega
    · exact heq
    · have h1 : (i2 + 1) * cols ≤ i * cols := Nat.mul_le_mul_right cols (by omega)
      rw [Nat.succ_mul] at h1
      omega
  subst hii
  omega

/-- The four `size_t` bounds tests of the construction, rewritten over the
mathematical integers: for an in-range cell the wrapped comparisons accept
exactly the in-bounds neighbors. -/
theorem cellPairs_eq (rows cols i j : ℕ) (hr : rows < SIZE_WRAP) (hc : cols < SIZE_WRAP)
    (hi : i < rows) (hj : j < cols) :
    cellPairs rows cols i j =
      (if 1 ≤ i then [(vertid cols i j, vertid cols (i-1) j)] else []) ++
      (if i + 1 < rows then [(vertid cols i j, vertid cols (i+1) j)] else []) ++
      (if 1 ≤ j then [(vertid cols i j, vertid cols i (j-1))] else []) ++
      (if j + 1 < cols then [(vertid cols i j, vertid cols i (j+1))] else []) := by
  have e1 : (if subOne64 i < rows then [(vertid cols i j, vertid cols (subOne64 i) j)]
      else []) = (if 1 ≤ i then [(vertid cols i j, vertid cols (i-1) j)] else []) := by
    by_cases h : 1 ≤ i
    · rw [if_pos ((subOne64_lt_iff hr hi).mpr h), if_pos h, subOne64_eq h (by omega)]
    · rw [if_neg (fun hlt => h ((subOne64_lt_iff hr hi).mp hlt)), if_neg h]
  have e2 : (if addOne64 i < rows then [(vertid cols i j, vertid cols (addOne64 i) j)]
      else []) = (if i + 1 < rows then [(vertid cols i j, vertid cols (i+1) j)] else []) := by
    have hv : addOne64 i = i + 1 := by unfold addOne64 SIZE_WRAP at *; omega
    rw [hv]
  have e3 : (if subOne64 j < cols then [(vertid cols i j, vertid cols i (subOne64 j))]
      else []) = (if 1 ≤ j then [(vertid cols i j, vertid cols i (j-1))] else []) := by
    by_cases h : 1 ≤ j
    · rw [if_pos ((subOne64_lt_iff hc hj).mpr h), if_pos h, subOne64_eq h (by omega)]
    · rw [if_neg (fun hlt => h ((subOne64_lt_iff hc hj).mp hlt)), if_neg h]
  have e4 : (if addOne64 j < cols then [(vertid cols i j, vertid cols i (addOne64 j))]
      else []) = (if j + 1 < cols then [(vertid cols i j, vertid cols i (j+1))] else []) := by
    have hv : addOne64 j = j + 1 := by unfold addOne64 SIZE_WRAP at *; omega
    rw [hv]
  unfold cellPairs
  rw [e1, e2, e3, e4]

theorem mem_ite_single {α : Type} {p x : α} {c : Prop} [Decidable c]
    (h : p ∈ if c then [x] else ([] : List α)) : c ∧ p = x := by
  split_ifs at h with hc
  · exact ⟨hc, List.mem_singleton.mp h⟩
  · exact absurd h (List.not_mem_nil p)

theorem nodup_ite_single {α : Type} {c : Prop} [Decidable c] (x : α) :
    (if c then [x] else ([] : List α)).Nodup := by
  split_ifs <;> simp

/-- Every edge added for cell (i, j) has that cell as its source. -/
theorem cellPairs_fst (rows cols i j : ℕ) :
    ∀ p ∈ cellPairs rows cols i j, p.1 = vertid cols i j := by
  intro p hp
  unfold cellPairs at hp
  simp only [List.mem_append] at hp
  rcases hp with ((h | h) | h) | h <;> rw [(mem_ite_single h).2]

/-- The up-to-4 edges added for one cell are pairwise distinct. -/
theorem cellPairs_nodup (rows cols i j : ℕ) (hr : rows < SIZE_WRAP) (hc : cols < SIZE_WRAP)
    (hi : i < rows) (hj : j < cols) : (cellPairs rows cols i j).Nodup := by
  have ne12 : vertid cols (i-1) j ≠ vertid cols (i+1) j := fun h => by
    have := (vertid_inj cols _ _ _ _ hj hj h).1; omega
  have ne23 : vertid cols (i+1) j ≠ vertid cols i (j-1) := fun h => by
    have := (vertid_inj cols _ _ _ _ hj (by omega : j - 1 < cols) h).1; omega
  have ne13 : 1 ≤ i → vertid cols (i-1) j ≠ vertid cols i (j-1) := fun h1 h => by
    have := (vertid_inj cols _ _ _ _ hj (by omega : j - 1 < cols) h).1; omega
  have ne14 : j + 1 < cols → vertid cols (i-1) j ≠ vertid cols i (j+1) := fun h4 h => by
    have := (vertid_inj cols _ _ _ _ hj (by omega : j + 1 < cols) h).2; omega
  have ne24 : j + 1 < cols → vertid cols (i+1) j ≠ vertid cols i (j+1) := fun h4 h => by
    have := (vertid_inj cols _ _ _ _ hj (by omega : j + 1 < cols) h).1; omega
  have ne34 : j + 1 < cols → vertid cols i (j-1) ≠ vertid cols i (j+1) := fun h4 h => by
    have := (vertid_inj cols _ _ _ _ (by omega : j - 1 < cols) (by omega : j + 1 < cols) h).2
    omega
  rw [cellPairs_eq rows cols i j hr hc hi hj]
  by_cases h1 : 1 ≤ i <;> by_cases h2 : i + 1 < rows <;> by_cases h3 : 1 ≤ j <;>
    by_cases h4 : j + 1 < cols <;>
    simp_all [List.nodup_append, List.nodup_cons, List.Disjoint, Prod.ext_iff,
      nodup_ite_single]

/-- No directed edge is added twice during construction. -/
theorem latticePairs_nodup (rows cols : ℕ) (hr : rows < SIZE_WRAP) (hc : cols < SIZE_WRAP) :
    (latticePairs rows cols).Nodup := by
  unfold latticePairs
  rw [List.nodup_flatMap]
  constructor
  · intro i hi
    rw [List.nodup_flatMap]
    constructor
    · intro j hj
      exact cellPairs_nodup rows cols i j hr hc (List.mem_range.mp hi) (List.mem_range.mp hj)
    · refine List.Pairwise.imp ?_ (List.pairwise_lt_range cols)
      intro a b hab p hpa hpb
      have e1 := cellPairs_fst rows cols i a p hpa
      have e2 := cellPairs_fst rows cols i b p hpb
      unfold vertid at e1 e2
      omega
  · refine List.Pairwise.imp ?_ (List.pairwise_lt_range rows)
    intro a b hab p hpa hpb
    rcases List.mem_flatMap.mp hpa with ⟨j1, hj1, hp1⟩
    rcases List.mem_flatMap.mp hpb with ⟨j2, hj2, hp2⟩
    have e1 := cellPairs_fst rows cols a j1 p hp1
    have e2 := cellPairs_fst rows cols b j2 p hp2
    have := vertid_inj cols a j1 b j2 (List.mem_range.mp hj1) (List.mem_range.mp hj2)
      (e1.symm.trans e2)
    omega

/-- Membership characterization of the constructed directed edges: exactly
the ordered pairs of 4-adjacent in-bounds cells, in row-major ids. -/
theorem latticePairs_mem (rows cols : ℕ) (hr : rows < SIZE_WRAP) (hc : cols < SIZE_WRAP)
    (u v : ℕ) :
    (u, v) ∈ latticePairs rows cols ↔
      ∃ i j i2 j2, Adj rows cols i j i2 j2 ∧ u = vertid cols i j ∧ v = vertid cols i2 j2 := by
  unfold latticePairs
  simp only [List.mem_flatMap, List.mem_range]
  constructor
  · rintro ⟨i, hi, j, hj, hp⟩
    rw [cellPairs_eq rows cols i j hr hc hi hj] at hp
    simp only [List.mem_append] at hp
    rcases hp with ((h | h) | h) | h
    all_goals obtain ⟨hcnd, hpe⟩ := mem_ite_single h
    all_goals simp only [Prod.mk.injEq] at hpe
    · exact ⟨i, j, i - 1, j, by unfold Adj; omega, hpe.1, hpe.2⟩
    · exact ⟨i, j, i + 1, j, by unfold Adj; omega, hpe.1, hpe.2⟩
    · exact ⟨i, j, i, j - 1, by unfold Adj; omega, hpe.1, hpe.2⟩
    · exact ⟨i, j, i, j + 1, by unfold Adj; omega, hpe.1, hpe.2⟩
  · rintro ⟨i, j, i2, j2, hadj, hu, hv⟩
    obtain ⟨hi, hj, hi2, hj2, hcase⟩ := hadj
    subst hu
    subst hv
    refine ⟨i, hi, j, hj, ?_⟩
    rw [cellPairs_eq rows cols i j hr hc hi hj]
    simp only [List.mem_append]
    rcases hcase with ⟨hjj, hii | hii⟩ | ⟨hii, hjj | hjj⟩
    · refine Or.inl (Or.inl (Or.inl ?_))
      rw [if_pos (show 1 ≤ i by omega)]
      have h5 : i - 1 = i2 := by omega
      rw [List.mem_singleton, Prod.mk.injEq, h5, hjj]
      exact ⟨rfl, rfl⟩
    · refine Or.inl (Or.inl (Or.inr ?_))
      rw [if_pos (show i + 1 < rows by omega)]
      have h5 : i + 1 = i2 := by omega
      rw [List.mem_singleton, Prod.mk.injEq, h5, hjj]
      exact ⟨rfl, rfl⟩
    · refine Or.inl (Or.inr ?_)
      rw [if_pos (show 1 ≤ j by omega)]
      have h5 : j - 1 = j2 := by omega
      rw [List.mem_singleton, Prod.mk.injEq, h5, hii]
      exact ⟨rfl, rfl⟩
    · refine Or.inr ?_
      rw [if_pos (show j + 1 < cols by omega)]
      have h5 : j + 1 = j2 := by omega
      rw [List.mem_singleton, Prod.mk.injEq, h5, hii]
      exact ⟨rfl, rfl⟩

theorem Adj_symm {rows cols i j i2 j2 : ℕ} (h : Adj rows cols i j i2 j2) :
    Adj rows cols i2 j2 i j := by
  unfold Adj at *
  omega

/-- The reverse of every constructed directed edge is also constructed. -/
theorem latticePairs_mem_symm (rows cols : ℕ) (hr : rows < SIZE_WRAP)
    (hc : cols < SIZE_WRAP) (u v : ℕ) (h : (u, v) ∈ latticePairs rows cols) :
    (v, u) ∈ latticePairs rows cols := by
  rw [latticePairs_mem rows cols hr hc] at h ⊢
  obtain ⟨i, j, i2, j2, hadj, hu, hv⟩ := h
  exact ⟨i2, j2, i, j, Adj_symm hadj, hv, hu⟩

theorem outTargets_nodup (rows cols w : ℕ) (hr : rows < SIZE_WRAP)
    (hc : cols < SIZE_WRAP) :
    (((latticePairs rows cols).filter (fun p => p.1 = w)).map Prod.snd).Nodup := by
  apply List.Nodup.map_on
  · intro p hp q hq hpq
    have hp1 : p.1 = w := by simpa using (List.mem_filter.mp hp).2
    have hq1 : q.1 = w := by simpa using (List.mem_filter.mp hq).2
    exact Prod.ext (hp1.trans hq1.symm) hpq
  · exact (latticePairs_nodup rows cols hr hc).filter _

theorem inSources_nodup (rows cols w : ℕ) (hr : rows < SIZE_WRAP)
    (hc : cols < SIZE_WRAP) :
    (((latticePairs rows cols).filter (fun p => p.2 = w)).map Prod.fst).Nodup := by
  apply List.Nodup.map_on
  · intro p hp q hq hpq
    have hp2 : p.2 = w := by simpa using (List.mem_filter.mp hp).2
    have hq2 : q.2 = w := by simpa using (List.mem_filter.mp hq).2
    exact Prod.ext hpq (hp2.trans hq2.symm)
  · exact (latticePairs_nodup rows cols hr hc).filter _

/-- A vertex's out-neighbor multiset equals its in-neighbor multiset. -/
theorem outTargets_perm_inSources (rows cols w : ℕ) (hr : rows < SIZE_WRAP)
    (hc : cols < SIZE_WRAP) :
    List.Perm (((latticePairs rows cols).filter (fun p => p.1 = w)).map Prod.snd)
      (((latticePairs rows cols).filter (fun p => p.2 = w)).map Prod.fst) := by
  have hmem : ∀ x, (x ∈ ((latticePairs rows cols).filter (fun p => p.1 = w)).map Prod.snd ↔
      x ∈ ((latticePairs rows cols).filter (fun p => p.2 = w)).map Prod.fst) := by
    intro x
    simp only [List.mem_map, List.mem_filter, decide_eq_true_eq]
    constructor
    · rintro ⟨p, ⟨hpl, hp1⟩, rfl⟩
      refine ⟨(p.2, w), ⟨?_, rfl⟩, rfl⟩
      have hwp : (w, p.2) ∈ latticePairs rows cols := by rw [← hp1]; exact hpl
      exact latticePairs_mem_symm rows cols hr hc w p.2 hwp
    · rintro ⟨p, ⟨hpl, hp2⟩, rfl⟩
      refine ⟨(w, p.1), ⟨?_, rfl⟩, rfl⟩
      have hpw : (p.1, w) ∈ latticePairs rows cols := by rw [← hp2]; exact hpl
      exact latticePairs_mem_symm rows cols hr hc p.1 w hpw
  apply List.perm_iff_count.mpr
  intro a
  rw [List.count_eq_of_nodup (outTargets_nodup rows cols w hr hc),
    List.count_eq_of_nodup (inSources_nodup rows cols w hr hc),
    if_congr (hmem a) rfl rfl]

/-- C5: for every directed edge of the finalized lattice there is exactly
one structurally-paired reverse edge (the edge list has no duplicates and
membership is swap-symmetric, so the reverse of every edge appears exactly
once), and for every vertex the finalize-sorted out-edge and in-edge lists
coincide position by position (equal lists, hence equal length with the
i-th out-target equal to the i-th in-source), which is what makes the
reverse edge resolvable without search. -/
theorem C5_reverse_edge_pairing (rows cols : ℕ)
    (hr : rows < SIZE_WRAP) (hc : cols < SIZE_WRAP) :
    (latticePairs rows cols).Nodup ∧
    (∀ u v, (u, v) ∈ latticePairs rows cols ↔ (v, u) ∈ latticePairs rows cols) ∧
    (∀ w, sortedOutTargets rows cols w = sortedInSources rows cols w) := by
  have hnd := latticePairs_nodup rows cols hr hc
  refine ⟨hnd, ?_, ?_⟩
  · intro u v
    exact ⟨latticePairs_mem_symm rows cols hr hc u v,
      latticePairs_mem_symm rows cols hr hc v u⟩
  · intro w
    unfold sortedOutTargets sortedInSources
    exact List.eq_of_perm_of_sorted
      ((List.mergeSort_perm _ _).trans
        ((outTargets_perm_inSources rows cols w hr hc).trans
          (List.mergeSort_perm _ _).symm))
      (List.sorted_mergeSort' _) (List.sorted_mergeSort' _)

/-- Witness for C5 on a 2×3 lattice. -/
theorem C5_reverse_edge_pairing_witness :
    (2 < SIZE_WRAP ∧ 3 < SIZE_WRAP) ∧
    ((latticePairs 2 3).Nodup ∧
     (∀ u v, (u, v) ∈ latticePairs 2 3 ↔ (v, u) ∈ latticePairs 2 3) ∧
     (∀ w, sortedOutTargets 2 3 w = sortedInSources 2 3 w)) :=
  ⟨⟨by decide, by decide⟩, C5_reverse_edge_pairing 2 3 (by decide) (by decide)⟩

/-- The edge records of a cell are its (source, target) pairs with the
uniform initial payload for the target attached. -/
theorem cellEdges_eq_map (nrm : List ℚ → List ℚ) (K rows cols i j : ℕ) :
    cellEdges nrm K rows cols i j =
      (cellPairs rows cols i j).map
        (fun p => ⟨p.1, p.2, initEdgeData nrm K p.2⟩ : ℕ × ℕ → EdgeRec) := by
  unfold cellEdges cellPairs
  simp only [List.map_append, apply_ite (List.map (fun p : ℕ × ℕ =>
    (⟨p.1, p.2, initEdgeData nrm K p.2⟩ : EdgeRec))), List.map_cons, List.map_nil]

/-- All edge records are the lattice pairs with the uniform payload. -/
theorem constructEdges_eq_map (nrm : List ℚ → List ℚ) (K rows cols : ℕ) :
    constructEdges nrm K rows cols =
      (latticePairs rows cols).map
        (fun p => ⟨p.1, p.2, initEdgeData nrm K p.2⟩ : ℕ × ℕ → EdgeRec) := by
  unfold constructEdges latticePairs
  rw [List.map_flatMap]
  congr 1
  funext i
  rw [List.map_flatMap]
  congr 1
  funext j
  exact cellEdges_eq_map nrm K rows cols i j

theorem constructEdges_pairs (nrm : List ℚ → List ℚ) (K rows cols : ℕ) :
    (constructEdges nrm K rows cols).map (fun e => (e.src, e.tgt)) =
      latticePairs rows cols := by
  rw [constructEdges_eq_map, List.map_map]
  exact List.map_id _

/-- Length of the row-major vertex grid. -/
theorem grid_length {α : Type} (cols : ℕ) (f : ℕ → ℕ → α) :
    ∀ rows, ((List.range rows).flatMap (fun a => (List.range cols).map (f a))).length =
      rows * cols := by
  intro rows
  induction rows with
  | zero => simp
  | succ n ih =>
      rw [List.range_succ, List.flatMap_append, List.length_append, ih]
      simp [Nat.succ_mul]

/-- Row-major indexing into the vertex grid. -/
theorem grid_getElem {α : Type} (cols : ℕ) (f : ℕ → ℕ → α) :
    ∀ (rows i j : ℕ), i < rows → j < cols →
      ((List.range rows).flatMap (fun a => (List.range cols).map (f a)))[i * cols + j]? =
        some (f i j) := by
  intro rows
  induction rows with
  | zero => intro i j hi _; exact absurd hi (Nat.not_lt_zero i)
  | succ n ih =>
      intro i j hi hj
      rw [List.range_succ, List.flatMap_append]
      by_cases hin : i < n
      · rw [List.getElem?_append_left, ih i j hin hj]
        rw [grid_length]
        have h1 : (i + 1) * cols ≤ n * cols := Nat.mul_le_mul_right cols (by omega)
        rw [Nat.succ_mul] at h1
        omega
      · have hieq : i = n := by omega
        subst hieq
        have hlen := grid_length cols f i
        rw [List.getElem?_append_right (by rw [hlen]; omega), hlen]
        simp only [List.flatMap_cons, List.flatMap_nil, List.append_nil]
        have hidx : i * cols + j - i * cols = j := by omega
        rw [hidx, List.getElem?_map, List.getElem?_range hj]
        rfl

/-- C6: during construction, the vertex stored at row-major position
(i, j) has potential with log-weight `-(obs - k)² / (2σ²)` at every state
k < K (then normalized), and belief the (normalized) uniform factor. -/
theorem C6_vertex_potential (nrm : List ℚ → List ℚ) (img : ℕ → ℕ → ℚ)
    (K rows cols : ℕ) (sigma : ℚ) (i j : ℕ) (hi : i < rows) (hj : j < cols) :
    (constructVertices nrm img K rows cols sigma)[vertid cols i j]? =
      some { potential := { var := vertid cols i j
                            logP := nrm (nodePotentialRaw (img i j) (sigma * sigma) K) }
             belief := { var := vertid cols i j, logP := nrm (uniformVec K) } } ∧
    ∀ k, k < K → (nodePotentialRaw (img i j) (sigma * sigma) K)[k]? =
      some (-(img i j - (k : ℚ)) ^ 2 / (2 * sigma ^ 2)) := by
  constructor
  · unfold constructVertices vertid
    exact grid_getElem cols _ rows i j hi hj
  · intro k hk
    unfold nodePotentialRaw
    rw [List.getElem?_map, List.getElem?_range hk]
    show some _ = some _
    congr 1
    ring

/-- C7: every cell has a directed edge record to exactly its in-bounds
axis-aligned neighbors; every edge record carries the uniform normalized
message (labelled with the target) with `old_message` equal to it; the
(source, target) pairs are duplicate-free and swap-symmetric, so each
undirected link is represented by exactly two directed records; and a cell
has fewer than 4 edges exactly when it is on the boundary. -/
theorem C7_lattice_links (nrm : List ℚ → List ℚ) (K rows cols i j : ℕ)
    (hr : rows < SIZE_WRAP) (hc : cols < SIZE_WRAP) (hi : i < rows) (hj : j < cols) :
    (∀ i2 j2, i2 < rows → j2 < cols →
        ((⟨vertid cols i j, vertid cols i2 j2,
            initEdgeData nrm K (vertid cols i2 j2)⟩ : EdgeRec) ∈
          constructEdges nrm K rows cols ↔ Adj rows cols i j i2 j2)) ∧
    (∀ e ∈ constructEdges nrm K rows cols,
        e.data.message = { var := e.tgt, logP := nrm (uniformVec K) } ∧
        e.data.old_message = e.data.message) ∧
    ((constructEdges nrm K rows cols).map (fun e => (e.src, e.tgt))).Nodup ∧
    (∀ u v, (u, v) ∈ (constructEdges nrm K rows cols).map (fun e => (e.src, e.tgt)) ↔
        (v, u) ∈ (constructEdges nrm K rows cols).map (fun e => (e.src, e.tgt))) ∧
    ((cellEdges nrm K rows cols i j).length < 4 ↔
        (i = 0 ∨ i + 1 = rows ∨ j = 0 ∨ j + 1 = cols)) := by
  refine ⟨?_, ?_, ?_, ?_, ?_⟩
  · intro i2 j2 hi2 hj2
    rw [constructEdges_eq_map]
    constructor
    · intro hmem
      rcases List.mem_map.mp hmem with ⟨p, hp, hpe⟩
      simp only [EdgeRec.mk.injEq] at hpe
      obtain ⟨h1, h2, -⟩ := hpe
      have hp' : (vertid cols i j, vertid cols i2 j2) ∈ latticePairs rows cols := by
        rw [← h1, ← h2]; exact hp
      rw [latticePairs_mem rows cols hr hc] at hp'
      obtain ⟨a, b, a2, b2, hadj, hu, hv⟩ := hp'
      obtain ⟨ha, hb, ha2, hb2, hcase⟩ := hadj
      obtain ⟨e1, e2⟩ := vertid_inj cols i j a b hj hb hu
      obtain ⟨e3, e4⟩ := vertid_inj cols i2 j2 a2 b2 hj2 hb2 hv
      refine ⟨hi, hj, hi2, hj2, ?_⟩
      omega
    · intro hadj
      rw [List.mem_map]
      refine ⟨(vertid cols i j, vertid cols i2 j2), ?_, rfl⟩
      rw [latticePairs_mem rows cols hr hc]
      exact ⟨i, j, i2, j2, hadj, rfl, rfl⟩
  · intro e he
    rw [constructEdges_eq_map] at he
    obtain ⟨p, hp, rfl⟩ := List.mem_map.mp he
    exact ⟨rfl, rfl⟩
  · rw [constructEdges_pairs]
    exact latticePairs_nodup rows cols hr hc
  · rw [constructEdges_pairs]
    exact fun u v => ⟨latticePairs_mem_symm rows cols hr hc u v,
      latticePairs_mem_symm rows cols hr hc v u⟩
  · rw [cellEdges_eq_map, List.length_map, cellPairs_eq rows cols i j hr hc hi hj]
    by_cases h1 : 1 ≤ i <;> by_cases h2 : i + 1 < rows <;> by_cases h3 : 1 ≤ j <;>
      by_cases h4 : j + 1 < cols <;> simp [h1, h2, h3, h4] <;> omega

/-- C10: for an in-range cell, the unsigned (wrapping) neighbor-bounds
tests hold exactly for the in-bounds neighbors — in particular at `i = 0`
the wrapped `i - 1` is never below `rows` — and consequently every
constructed edge joins two in-bounds cells. -/
theorem C10_unsigned_bounds (rows cols i j : ℕ)
    (hr : rows < SIZE_WRAP) (hc : cols < SIZE_WRAP) (hi : i < rows) (hj : j < cols) :
    (subOne64 i < rows ↔ 1 ≤ i) ∧ (addOne64 i < rows ↔ i + 1 < rows) ∧
    (subOne64 j < cols ↔ 1 ≤ j) ∧ (addOne64 j < cols ↔ j + 1 < cols) ∧
    (∀ p ∈ latticePairs rows cols, ∃ a b a2 b2,
        a < rows ∧ b < cols ∧ a2 < rows ∧ b2 < cols ∧
        p = (vertid cols a b, vertid cols a2 b2)) := by
  refine ⟨subOne64_lt_iff hr hi, addOne64_lt_iff hr hi,
    subOne64_lt_iff hc hj, addOne64_lt_iff hc hj, ?_⟩
  intro p hp
  have hp' : (p.1, p.2) ∈ latticePairs rows cols := hp
  rw [latticePairs_mem rows cols hr hc] at hp'
  obtain ⟨a, b, a2, b2, hadj, h1, h2⟩ := hp'
  obtain ⟨ha, hb, ha2, hb2, -⟩ := hadj
  exact ⟨a, b, a2, b2, ha, hb, ha2, hb2, Prod.ext h1 h2⟩

/-- Witness for C6 on a 1×1 grid with K = 2, σ = 1, observation 5. -/
theorem C6_vertex_potential_witness :
    ((0 : ℕ) < 1 ∧ (0 : ℕ) < 1) ∧
    ((constructVertices (fun l => l) (fun _ _ => (5 : ℚ)) 2 1 1 1)[vertid 1 0 0]? =
        some { potential := { var := vertid 1 0 0
                              logP := nodePotentialRaw 5 (1 * 1) 2 }
               belief := { var := vertid 1 0 0, logP := uniformVec 2 } } ∧
     ∀ k : ℕ, k < 2 → (nodePotentialRaw 5 (1 * 1) 2)[k]? =
        some (-(5 - (k : ℚ)) ^ 2 / (2 * 1 ^ 2))) :=
  ⟨⟨by decide, by decide⟩,
    C6_vertex_potential (fun l => l) (fun _ _ => (5 : ℚ)) 2 1 1 1 0 0
      (by decide) (by decide)⟩

/-- Witness for C7 on a 2×3 lattice at cell (0, 1). -/
theorem C7_lattice_links_witness :
    (2 < SIZE_WRAP ∧ 3 < SIZE_WRAP ∧ (0 : ℕ) < 2 ∧ (1 : ℕ) < 3) ∧
    ((∀ i2 j2, i2 < 2 → j2 < 3 →
        ((⟨vertid 3 0 1, vertid 3 i2 j2,
            initEdgeData (fun l => l) 2 (vertid 3 i2 j2)⟩ : EdgeRec) ∈
          constructEdges (fun l => l) 2 2 3 ↔ Adj 2 3 0 1 i2 j2)) ∧
     (∀ e ∈ constructEdges (fun l => l) 2 2 3,
        e.data.message = { var := e.tgt, logP := uniformVec 2 } ∧
        e.data.old_message = e.data.message) ∧
     ((constructEdges (fun l => l) 2 2 3).map (fun e => (e.src, e.tgt))).Nodup ∧
     (∀ u v, (u, v) ∈ (constructEdges (fun l => l) 2 2 3).map (fun e => (e.src, e.tgt)) ↔
        (v, u) ∈ (constructEdges (fun l => l) 2 2 3).map (fun e => (e.src, e.tgt))) ∧
     ((cellEdges (fun l => l) 2 2 3 0 1).length < 4 ↔
        (0 = 0 ∨ 0 + 1 = 2 ∨ 1 = 0 ∨ 1 + 1 = 3))) :=
  ⟨⟨by decide, by decide, by decide, by decide⟩,
    C7_lattice_links (fun l => l) 2 2 3 0 1 (by decide) (by decide)
      (by decide) (by decide)⟩

/-- Witness for C10 on a 2×3 lattice at the corner-adjacent cell (0, 2). -/
theorem C10_unsigned_bounds_witness :
    (2 < SIZE_WRAP ∧ 3 < SIZE_WRAP ∧ (0 : ℕ) < 2 ∧ (2 : ℕ) < 3) ∧
    ((subOne64 0 < 2 ↔ 1 ≤ 0) ∧ (addOne64 0 < 2 ↔ 0 + 1 < 2) ∧
     (subOne64 2 < 3 ↔ 1 ≤ 2) ∧ (addOne64 2 < 3 ↔ 2 + 1 < 3) ∧
     (∀ p ∈ latticePairs 2 3, ∃ a b a2 b2,
        a < 2 ∧ b < 3 ∧ a2 < 2 ∧ b2 < 3 ∧
        p = (vertid 3 a b, vertid 3 a2 b2))) :=
  ⟨⟨by decide, by decide, by decide, by decide⟩,
    C10_unsigned_bounds 2 3 0 2 (by decide) (by decide) (by decide) (by decide)⟩

end LoopyBP
